import Mathlib

/-!
Verification of the PixelSync storage–database reconciliation engine.

This file shallowly embeds the relevant parts of `src/server/api/src/index.js`
(the `POST /sync` handler, the `analyzeImage` helper, and the
`POST /images/:id/crop` handler) together with the table schema of
`src/server/db/init.sql`, and proves properties of the embedding.

Modelling conventions:
* The database table `images` is a `Store`: a list of rows plus a counter
  generating fresh ids (standing in for `gen_random_uuid()`).
* The filesystem is a `Disk`: the storage-root directory listing
  (`fs.readdirSync(storageRoot)`), a finite map from full paths to file data
  (backing `fs.statSync` and `sharp(path).metadata()`), and the set of paths
  for which `fs.existsSync` answers `true`.
* `sharp(path).metadata()` is modelled by `Disk.metaAt`: `none` means the
  call throws (missing or undecodable file); `some (w, h)` means it succeeds
  with possibly-undefined width/height (`meta.width ?? null`).
* Timestamps are naturals; `NOW()` is passed in as `now`.
* The sync handler's database writes are represented as an explicit list of
  `Mutation`s computed from the two snapshots.  This is faithful because the
  handler takes both snapshots (`dbRows`, `diskFiles`) before mutating and
  every branch condition reads only the snapshots and the disk, never the
  mutated table; the mutations are listed in exactly the order the handler
  awaits them (adoption inserts in directory order, then presence-pass
  updates in row order), so applying a prefix of the list is the state left
  behind when a later write fails.
-/

namespace PixelSync

/-! ## Filesystem model -/

/-- Decode result of `sharp(path).metadata()` on one file: `none` when the
call would throw, otherwise the (possibly undefined) width and height. -/
structure FileData where
  size : Nat
  meta : Option (Option Nat × Option Nat)
deriving DecidableEq, Repr

/-- The filesystem as the sync engine sees it. -/
structure Disk where
  /-- names returned by `fs.readdirSync(storageRoot)` -/
  listing : List String
  /-- file data by full path, backing `fs.statSync` and decoding -/
  files : List (String × FileData)
  /-- paths for which `fs.existsSync` answers true -/
  existingPaths : List String
deriving DecidableEq, Repr

def Disk.fileAt (d : Disk) (p : String) : Option FileData :=
  (d.files.find? (fun e => e.1 == p)).map (fun e => e.2)

/-- `sharp(p).metadata()`: throws (`none`) when the file is missing or
undecodable. -/
def Disk.metaAt (d : Disk) (p : String) : Option (Option Nat × Option Nat) :=
  (d.fileAt p).bind (fun fd => fd.meta)

/-- `fs.existsSync(p)` -/
def Disk.existsAt (d : Disk) (p : String) : Bool :=
  d.existingPaths.contains p

/-! ## Image Inspector (`analyzeImage`, index.js lines 46–62) -/

structure InspectResult where
  width : Option Nat
  height : Option Nat
  isCorrupted : Bool
deriving DecidableEq, Repr

/-- `analyzeImage(filePath)`: tries `sharp(filePath).metadata()` and on
success returns `{ width: meta.width ?? null, height: meta.height ?? null,
isCorrupted: false }`; any failure is caught and becomes
`{ width: null, height: null, isCorrupted: true }`. -/
def analyzeImage (d : Disk) (p : String) : InspectResult :=
  match d.metaAt p with
  | some (w, h) => ⟨w, h, false⟩
  | none => ⟨none, none, true⟩

/-! ## Record store model (table `images` of init.sql) -/

structure ImageRecord where
  id : Nat
  filename : String
  mimeType : String
  sizeBytes : Nat
  width : Option Nat
  height : Option Nat
  storagePath : String
  isCorrupted : Bool
  createdAt : Nat
  updatedAt : Nat
deriving DecidableEq, Repr

/-- The `images` table plus the id generator. -/
structure Store where
  rows : List ImageRecord
  nextId : Nat
deriving DecidableEq, Repr

/-- Column values supplied by an `INSERT INTO images ...`; `id`,
`created_at` and `updated_at` come from column defaults. -/
structure NewImage where
  filename : String
  mimeType : String
  sizeBytes : Nat
  width : Option Nat
  height : Option Nat
  storagePath : String
  isCorrupted : Bool
deriving DecidableEq, Repr

/-- Row produced by an insert: defaults fill `id` and both timestamps. -/
def mkRec (id now : Nat) (n : NewImage) : ImageRecord :=
  ⟨id, n.filename, n.mimeType, n.sizeBytes, n.width, n.height,
    n.storagePath, n.isCorrupted, now, now⟩

/-- One committed database write of the sync handler. -/
inductive Mutation where
  | ins (n : NewImage)
  | setCorrupted (id : Nat) (b : Bool)
deriving DecidableEq, Repr

/-- Apply one write.  An insert appends a fresh-id row; the sync handler's
`UPDATE images SET is_corrupted = $b WHERE id = $i` touches only the
`is_corrupted` column of matching rows (init.sql declares no trigger, so
`updated_at` keeps its old value). -/
def applyMut (now : Nat) (s : Store) : Mutation → Store
  | .ins n => ⟨s.rows ++ [mkRec s.nextId now n], s.nextId + 1⟩
  | .setCorrupted i b =>
      ⟨s.rows.map (fun r => if r.id = i then { r with isCorrupted := b } else r), s.nextId⟩

def applyMuts (now : Nat) (s : Store) : List Mutation → Store
  | [] => s
  | m :: ms => applyMuts now (applyMut now s m) ms

/-- `INSERT INTO images ...` as constrained by init.sql.  The only
uniqueness constraint in the schema is the primary key on `id`; `NOT NULL`
constraints are enforced by typing, and `storage_path` carries no UNIQUE
constraint, so no duplicate-path check happens here. -/
inductive DbError where
  | uniqueViolation
deriving DecidableEq, Repr

def dbInsert (now : Nat) (s : Store) (n : NewImage) : Except DbError Store :=
  if s.rows.any (fun r => r.id == s.nextId) then .error .uniqueViolation
  else .ok (applyMut now s (.ins n))

/-! ## Paths and extensions -/

/-- `path.join(storageRoot, name)` for a plain file name. -/
def joinPath (root name : String) : String := root ++ "/" ++ name

/-- ASCII lower-casing of a name, character by character (the names at
hand are ASCII, where this agrees with JavaScript `toLowerCase`). -/
def lowerChars (s : String) : List Char := s.data.map Char.toLower

/-- The directory filter `/\.(png|jpe?g|tiff?)$/i`: the lower-cased name
ends in one of the five allow-listed image extensions. -/
def isImageName (name : String) : Bool :=
  let l := lowerChars name
  ".png".data.isSuffixOf l || ".jpg".data.isSuffixOf l ||
    ".jpeg".data.isSuffixOf l || ".tif".data.isSuffixOf l ||
    ".tiff".data.isSuffixOf l

/-- Index of the last `'.'` in a character list, if any. -/
def lastDotIndex : List Char → Option Nat
  | [] => none
  | c :: cs =>
      match lastDotIndex cs with
      | some i => some (i + 1)
      | none => if c = '.' then some 0 else none

/-- `path.extname(name)` for a plain file name: the suffix from the last
dot, except that a name whose only leading character is the dot (a
dotfile) has no extension. -/
def extname (name : String) : String :=
  match lastDotIndex name.data with
  | none => ""
  | some 0 => ""
  | some i => ⟨name.data.drop i⟩

/-- MIME inference of the adoption pass (index.js lines 314–318):
`path.extname(file.name).toLowerCase()` mapped to a content type. -/
def mimeFor (name : String) : String :=
  let ext : String := ⟨lowerChars (extname name)⟩
  if ext = ".png" then "image/png"
  else if ext = ".tif" ∨ ext = ".tiff" then "image/tiff"
  else "image/jpeg"

/-- `path.basename` for a name without directory separators: the part
after the last `'/'`. -/
def basename (s : String) : String :=
  ⟨(s.data.reverse.takeWhile (fun c => c ≠ '/')).reverse⟩

/-! ## The sync handler (`POST /sync`, index.js lines 286–374) -/

/-- `diskFiles`: the storage-root listing filtered to image extensions. -/
def diskNames (d : Disk) : List String := d.listing.filter isImageName

/-- Column values inserted for an adopted orphan `name` whose stat result
is `fd` (index.js lines 313–334). -/
def newImageFor (root : String) (d : Disk) (name : String) (fd : FileData) : NewImage :=
  let fp := joinPath root name
  let a := analyzeImage d fp
  ⟨name, mimeFor name, fd.size, a.width, a.height, fp, a.isCorrupted⟩

/-- The orphan-adoption loop.  For each filtered directory entry, skip it
when some snapshot row already has its full path (`dbRows.some(...)`),
otherwise `fs.statSync` it — a lookup failure is the one throwing step of
the loop and aborts the handler (third component `false`), every write
already issued staying committed — and emit the insert.  Returns the
inserts in loop order, `addedFromDisk`, and whether the loop completed. -/
def adoptPass (root : String) (d : Disk) (dbRows : List ImageRecord) :
    List String → List Mutation × Nat × Bool
  | [] => ([], 0, true)
  | name :: rest =>
      let fp := joinPath root name
      if dbRows.any (fun r => r.storagePath == fp) then
        adoptPass root d dbRows rest
      else
        match d.fileAt fp with
        | none => ([], 0, false)
        | some fd =>
            let out := adoptPass root d dbRows rest
            (.ins (newImageFor root d name fd) :: out.1, out.2.1 + 1, out.2.2)

/-- The presence-pass loop over the pre-sync row snapshot (index.js lines
343–361).  The two `if` statements of the loop body have mutually
exclusive conditions, so they are rendered as one if/else-if chain.
Returns the updates in loop order, `markedMissing`, and `healed`. -/
def presencePass (d : Disk) : List ImageRecord → List Mutation × Nat × Nat
  | [] => ([], 0, 0)
  | r :: rest =>
      let out := presencePass d rest
      let ex := d.existsAt r.storagePath
      if !ex && !r.isCorrupted then
        (.setCorrupted r.id true :: out.1, out.2.1 + 1, out.2.2)
      else if ex && r.isCorrupted then
        (.setCorrupted r.id false :: out.1, out.2.1, out.2.2 + 1)
      else out

structure SyncSummary where
  totalDbBefore : Nat
  totalDisk : Nat
  addedFromDisk : Nat
  markedMissing : Nat
  healed : Nat
deriving DecidableEq, Repr

/-- All database writes one invocation of the handler issues, in order:
adoption inserts first, then (when no adoption step threw) the
presence-pass flag updates. -/
def syncMuts (root : String) (d : Disk) (rows : List ImageRecord) : List Mutation :=
  let a := adoptPass root d rows (diskNames d)
  if a.2.2 then a.1 ++ (presencePass d rows).1 else a.1

/-- `POST /sync`: take the row snapshot and the filtered directory
snapshot, run both passes, and answer the summary — or, when a step threw,
answer only the `500` failure (`none`), the writes already awaited staying
committed. -/
def runSync (root : String) (now : Nat) (d : Disk) (s : Store) :
    Store × Option SyncSummary :=
  let rows := s.rows
  let names := diskNames d
  let a := adoptPass root d rows names
  if a.2.2 then
    let p := presencePass d rows
    (applyMuts now s (a.1 ++ p.1),
      some ⟨rows.length, names.length, a.2.1, p.2.1, p.2.2⟩)
  else
    (applyMuts now s a.1, none)

/-- A sync run whose `(k+1)`-st database write fails unexpectedly: the
handler's `try` block stops after the `k` writes already awaited, and the
catch answers `500` with no summary.  (For `k` at least the number of
writes this is the failure-free store.) -/
def runSyncFaulty (root : String) (now k : Nat) (d : Disk) (s : Store) :
    Store × Option SyncSummary :=
  (applyMuts now s ((syncMuts root d s.rows).take k), none)

/-- Iterated full sync runs, each against its own disk snapshot and clock. -/
def syncSteps (root : String) (steps : List (Disk × Nat)) (s : Store) : Store :=
  steps.foldl (fun s p => (runSync root p.2 p.1 s).1) s

/-! ## Well-formedness -/

/-- A real directory: every listed image file is stat-able at its joined
path and `fs.existsSync` affirms it. -/
def Disk.wf (root : String) (d : Disk) : Prop :=
  ∀ name ∈ d.listing, isImageName name = true →
    (d.fileAt (joinPath root name)).isSome = true ∧
      d.existsAt (joinPath root name) = true

/-- A real table: primary-key ids are pairwise distinct and below the
generator. -/
def Store.wf (s : Store) : Prop :=
  (s.rows.map (fun r => r.id)).Nodup ∧ ∀ r ∈ s.rows, r.id < s.nextId

/-- At most one record per `storage_path` value. -/
def pathsUnique (rows : List ImageRecord) : Prop :=
  (rows.map (fun r => r.storagePath)).Nodup

/-! ## Derived views used by the theorems -/

/-- Directory entries the adoption pass will insert: filtered names whose
full path matches no snapshot row. -/
def orphanNames (root : String) (d : Disk) (rows : List ImageRecord) : List String :=
  (diskNames d).filter (fun n => !(rows.any (fun r => r.storagePath == joinPath root n)))

/-- The column values the adoption pass inserts for orphan `name`. -/
def adoptNew (root : String) (d : Disk) (name : String) : NewImage :=
  newImageFor root d name ((d.fileAt (joinPath root name)).getD ⟨0, none⟩)

/-- Net effect of a write list on one pre-existing row: only the
`setCorrupted` writes aimed at its id apply. -/
def updAll (ms : List Mutation) (r : ImageRecord) : ImageRecord :=
  match ms with
  | [] => r
  | .ins _ :: rest => updAll rest r
  | .setCorrupted i b :: rest =>
      updAll rest (if r.id = i then { r with isCorrupted := b } else r)

/-- Rows a write list appends, with ids in generation order. -/
def insRecs (now : Nat) : Nat → List Mutation → List ImageRecord
  | _, [] => []
  | nid, .ins n :: rest => mkRec nid now n :: insRecs now (nid + 1) rest
  | nid, .setCorrupted _ _ :: rest => insRecs now nid rest

def numIns : List Mutation → Nat
  | [] => 0
  | .ins _ :: rest => numIns rest + 1
  | .setCorrupted _ _ :: rest => numIns rest

/-- Paths inserted by a write list. -/
def insPaths : List Mutation → List String
  | [] => []
  | .ins n :: rest => n.storagePath :: insPaths rest
  | .setCorrupted _ _ :: rest => insPaths rest

/-- Does a write target row id `i`? -/
def targets (i : Nat) : Mutation → Bool
  | .ins _ => false
  | .setCorrupted j _ => j == i

/-- The presence-pass writes contributed by one snapshot row. -/
def presenceMut (d : Disk) (r : ImageRecord) : List Mutation :=
  if !(d.existsAt r.storagePath) && !r.isCorrupted then [.setCorrupted r.id true]
  else if d.existsAt r.storagePath && r.isCorrupted then [.setCorrupted r.id false]
  else []

/-- Rows created by a run of inserts with consecutively generated ids. -/
def insRecsOf (now : Nat) : Nat → List NewImage → List ImageRecord
  | _, [] => []
  | nid, n :: ns => mkRec nid now n :: insRecsOf now (nid + 1) ns

/-! ## The crop endpoint (`POST /images/:id/crop`, index.js lines 204–284) -/

/-- `img.extract(cropRegion)` region, in pixels (`Math.round` of the
fractional coordinates times the decoded dimensions). -/
structure CropRegion where
  left : Int
  top : Int
  width : Int
  height : Int
deriving DecidableEq, Repr

/-- `Math.round`: round half toward positive infinity. -/
def jsRound (q : ℚ) : Int := ⌊q + 1 / 2⌋

/-- Outcome of the crop handler: the error responses, or `201` with the
updated table, the updated directory, and the inserted row. -/
inductive CropOutcome where
  | imageNotFound
  | fileMissing
  | missingDimensions
  | cropFailed
  | created (s : Store) (d : Disk) (rec : ImageRecord)
deriving DecidableEq, Repr

/-- The cropped file's name: `crop_<timestamp>_<basename of source>`. -/
def cropName (ts : Nat) (filename : String) : String :=
  "crop_" ++ toString ts ++ "_" ++ basename filename

/-- The pixel crop region: `Math.round` of each fractional coordinate
times the decoded dimension. -/
def cropRegionFor (x y w h : ℚ) (iw ihh : Nat) : CropRegion :=
  ⟨jsRound (x * iw), jsRound (y * ihh), jsRound (w * iw), jsRound (h * ihh)⟩

/-- `fs.writeFileSync(newPath, buffer)`: the new file appears in the
directory and at its path. -/
def diskAfterWrite (d : Disk) (name path : String) (fd : FileData) : Disk :=
  ⟨d.listing ++ [name], (path, fd) :: d.files, path :: d.existingPaths⟩

/-- The row the crop handler inserts: only `filename, mime_type,
size_bytes, storage_path, is_corrupted` are listed in its INSERT, so
`width` and `height` default to NULL and `is_corrupted` is literally
`false`. -/
def cropRow (s : Store) (now : Nat) (mime name path : String) (size : Nat) : ImageRecord :=
  mkRec s.nextId now ⟨name, mime, size, none, none, path, false⟩

/-- `POST /images/:id/crop` with numeric body fields `x, y, width, height`
(fractions of the image size; rationals stand in for JS numbers, which
does not affect any property proved here).  The handler looks the row up,
checks the backing file, decodes it for its dimensions (`meta.width || 0`,
rejecting 0), extracts the region, writes the buffer to
`storageRoot/crop_<timestamp>_<basename>`, stats it, and inserts the new
row — without ever invoking `analyzeImage` on the new file.  The codec
step `img.extract(region).toBuffer()` is delegated to the external image
library and is a parameter: `codec src region` is `none` when that call
throws (caught as a `500`), otherwise the bytes written. -/
def cropEndpoint (codec : FileData → CropRegion → Option FileData)
    (root : String) (ts now : Nat) (s : Store) (d : Disk) (id : Nat)
    (x y w h : ℚ) : CropOutcome :=
  match s.rows.find? (fun r => r.id == id) with
  | none => .imageNotFound
  | some row =>
    if !(d.existsAt row.storagePath) then .fileMissing
    else
      match d.fileAt row.storagePath with
      | none => .cropFailed
      | some srcFd =>
        match srcFd.meta with
        | none => .cropFailed
        | some (mw, mh) =>
          if mw.getD 0 = 0 ∨ mh.getD 0 = 0 then .missingDimensions
          else
            match codec srcFd (cropRegionFor x y w h (mw.getD 0) (mh.getD 0)) with
            | none => .cropFailed
            | some outFd =>
              .created
                ⟨s.rows ++ [cropRow s now row.mimeType (cropName ts row.filename)
                    (joinPath root (cropName ts row.filename)) outFd.size],
                  s.nextId + 1⟩
                (diskAfterWrite d (cropName ts row.filename)
                  (joinPath root (cropName ts row.filename)) outFd)
                (cropRow s now row.mimeType (cropName ts row.filename)
                  (joinPath root (cropName ts row.filename)) outFd.size)

/-! ## Concrete states used by the closed theorems -/

/-- A storage root holding a single undecodable image file. -/
def diskBad : Disk := ⟨["bad.png"], [("/s/bad.png", ⟨7, none⟩)], ["/s/bad.png"]⟩

/-- A storage root holding a single decodable image file. -/
def diskGood : Disk := ⟨["a.png"], [("/s/a.png", ⟨5, some (some 3, some 4)⟩)], ["/s/a.png"]⟩

/-- An empty table. -/
def storeEmpty : Store := ⟨[], 0⟩

/-- A healthy row whose backing file is absent from `diskEmpty`. -/
def rowA : ImageRecord :=
  ⟨0, "a.png", "image/png", 3, some 2, some 2, "/s/a.png", false, 5, 5⟩

/-- An empty storage root. -/
def diskEmpty : Disk := ⟨[], [], []⟩

/-- A table holding just `rowA`. -/
def storeA : Store := ⟨[rowA], 1⟩

/-- Column values whose `storagePath` collides with `rowA`'s. -/
def dupNew : NewImage := ⟨"copy.png", "image/png", 4, some 2, some 2, "/s/a.png", false⟩

/-- A flagged row whose backing file is present on `diskGood`. -/
def rowFlagged : ImageRecord :=
  ⟨0, "a.png", "image/png", 3, some 9, some 8, "/s/a.png", true, 5, 5⟩

/-- A table holding just `rowFlagged`. -/
def storeFlagged : Store := ⟨[rowFlagged], 1⟩

/-- A disk holding one decodable source image for the crop witness. -/
def diskCrop : Disk := ⟨["src.png"], [("/s/src.png", ⟨9, some (some 10, some 10)⟩)], ["/s/src.png"]⟩

/-- A table holding one row backing `diskCrop`'s file. -/
def storeCrop : Store :=
  ⟨[⟨0, "src.png", "image/png", 9, some 10, some 10, "/s/src.png", false, 1, 1⟩], 1⟩

/-- A codec stub that always produces the same small decodable output. -/
def codecConst (_ : FileData) (_ : CropRegion) : Option FileData :=
  some ⟨4, some (some 2, some 2)⟩

/-- The table left by inserting `dupNew` into `storeA`. -/
def dupResult : Store := applyMut 9 storeA (.ins dupNew)

/-! # Theorems -/

/-! ## Write-list bookkeeping -/

theorem updAll_append (ms₁ ms₂ : List Mutation) (r : ImageRecord) :
    updAll (ms₁ ++ ms₂) r = updAll ms₂ (updAll ms₁ r) := by
  induction ms₁ generalizing r with
  | nil => rfl
  | cons m ms ih =>
    cases m with
    | ins n => simpa [updAll] using ih r
    | setCorrupted i b => simp [updAll, ih]

/-- A flag update changes nothing but the `isCorrupted` column. -/
theorem updAll_flagOnly (ms : List Mutation) (r : ImageRecord) :
    ∃ b, updAll ms r = { r with isCorrupted := b } := by
  induction ms generalizing r with
  | nil => exact ⟨r.isCorrupted, rfl⟩
  | cons m ms ih =>
    cases m with
    | ins n => simpa [updAll] using ih r
    | setCorrupted i b =>
      by_cases h : r.id = i
      · obtain ⟨b', hb'⟩ := ih { r with isCorrupted := b }
        refine ⟨b', ?_⟩
        show updAll ms (if r.id = i then { r with isCorrupted := b } else r) = _
        rw [if_pos h, hb']
      · obtain ⟨b', hb'⟩ := ih r
        refine ⟨b', ?_⟩
        show updAll ms (if r.id = i then { r with isCorrupted := b } else r) = _
        rw [if_neg h, hb']

theorem updAll_id (ms : List Mutation) (r : ImageRecord) :
    (updAll ms r).id = r.id := by
  obtain ⟨b, hb⟩ := updAll_flagOnly ms r
  rw [hb]

theorem updAll_storagePath (ms : List Mutation) (r : ImageRecord) :
    (updAll ms r).storagePath = r.storagePath := by
  obtain ⟨b, hb⟩ := updAll_flagOnly ms r
  rw [hb]

theorem updAll_of_not_targeted (ms : List Mutation) (r : ImageRecord)
    (h : ∀ m ∈ ms, targets r.id m = false) : updAll ms r = r := by
  induction ms with
  | nil => rfl
  | cons m ms ih =>
    cases m with
    | ins n => exact ih fun m hm => h m (List.mem_cons_of_mem _ hm)
    | setCorrupted i b =>
      have hb : (i == r.id) = false := h _ (List.mem_cons_self _ _)
      have hne : r.id ≠ i := fun he => by simp [he] at hb
      simpa [updAll, hne] using ih fun m hm => h m (List.mem_cons_of_mem _ hm)

theorem insRecs_append (now nid : Nat) (ms₁ ms₂ : List Mutation) :
    insRecs now nid (ms₁ ++ ms₂)
      = insRecs now nid ms₁ ++ insRecs now (nid + numIns ms₁) ms₂ := by
  induction ms₁ generalizing nid with
  | nil => simp [insRecs, numIns]
  | cons m ms ih =>
    cases m with
    | ins n =>
      have harith : nid + 1 + numIns ms = nid + (numIns ms + 1) := by omega
      simp [insRecs, numIns, ih, harith]
    | setCorrupted i b => simp [insRecs, numIns, ih]

theorem insRecs_of_no_ins (now nid : Nat) (ms : List Mutation)
    (h : numIns ms = 0) : insRecs now nid ms = [] := by
  induction ms generalizing nid with
  | nil => rfl
  | cons m ms ih =>
    cases m with
    | ins n => simp [numIns] at h
    | setCorrupted i b => exact ih nid (by simpa [numIns] using h)

theorem insRecs_map_ins (now nid : Nat) (ns : List NewImage) :
    insRecs now nid (ns.map Mutation.ins) = insRecsOf now nid ns := by
  induction ns generalizing nid with
  | nil => rfl
  | cons n ns ih => simp [insRecs, insRecsOf, ih]

theorem insRecs_take_mem (now : Nat) (ms : List Mutation) (k nid : Nat)
    (r : ImageRecord) (h : r ∈ insRecs now nid (ms.take k)) :
    r ∈ insRecs now nid ms := by
  induction ms generalizing nid k with
  | nil => simpa using h
  | cons m ms ih =>
    cases k with
    | zero => simp [insRecs] at h
    | succ k =>
      cases m with
      | ins n =>
        simp only [List.take, insRecs, List.mem_cons] at h ⊢
        rcases h with h | h
        · exact Or.inl h
        · exact Or.inr (ih k (nid + 1) h)
      | setCorrupted i b =>
        simp only [List.take, insRecs] at h ⊢
        exact ih k nid h

theorem applyMuts_nextId (now : Nat) (s : Store) (ms : List Mutation) :
    (applyMuts now s ms).nextId = s.nextId + numIns ms := by
  induction ms generalizing s with
  | nil => simp [applyMuts, numIns]
  | cons m ms ih =>
    cases m with
    | ins n => simp [applyMuts, applyMut, numIns, ih]; omega
    | setCorrupted i b => simp [applyMuts, applyMut, numIns, ih]

/-- Decomposition of a write sequence: when no flag update aims at a
generated id, the final table is the snapshot rows (each under its flag
updates) followed by the inserted rows in generation order. -/
theorem applyMuts_rows (now : Nat) (s : Store) (ms : List Mutation)
    (h : ∀ i b, Mutation.setCorrupted i b ∈ ms → i < s.nextId) :
    (applyMuts now s ms).rows
      = s.rows.map (updAll ms) ++ insRecs now s.nextId ms := by
  induction ms generalizing s with
  | nil =>
    have hid : updAll ([] : List Mutation) = fun r => r := funext fun r => rfl
    simp [applyMuts, insRecs, hid]
  | cons m ms ih =>
    cases m with
    | ins n =>
      have h' : ∀ i b, Mutation.setCorrupted i b ∈ ms → i < s.nextId + 1 :=
        fun i b hm => Nat.lt_succ_of_lt (h i b (List.mem_cons_of_mem _ hm))
      have := ih ⟨s.rows ++ [mkRec s.nextId now n], s.nextId + 1⟩ h'
      have hfix : updAll ms (mkRec s.nextId now n) = mkRec s.nextId now n := by
        refine updAll_of_not_targeted ms _ fun m hm => ?_
        cases m with
        | ins n' => rfl
        | setCorrupted i b =>
          have hi : i < s.nextId := h i b (List.mem_cons_of_mem _ hm)
          have : i ≠ (mkRec s.nextId now n).id := by
            simp only [mkRec]
            omega
          simpa [targets] using this
      simp only [applyMuts, applyMut] at this ⊢
      rw [this, List.map_append]
      simp [updAll, insRecs, hfix]
    | setCorrupted i b =>
      have h' : ∀ i' b', Mutation.setCorrupted i' b' ∈ ms → i' < s.nextId :=
        fun i' b' hm => h i' b' (List.mem_cons_of_mem _ hm)
      have := ih ⟨s.rows.map
        (fun r => if r.id = i then { r with isCorrupted := b } else r), s.nextId⟩ h'
      simp only [applyMuts, applyMut] at this ⊢
      rw [this, List.map_map]
      rfl

/-! ## Presence-pass characterization -/

theorem presencePass_cons (d : Disk) (r : ImageRecord) (rest : List ImageRecord) :
    (presencePass d (r :: rest)).1
      = presenceMut d r ++ (presencePass d rest).1 := by
  cases hex : d.existsAt r.storagePath <;> cases hc : r.isCorrupted <;>
    simp [presencePass, presenceMut, hex, hc]

theorem presencePass_missing (d : Disk) (rows : List ImageRecord) :
    (presencePass d rows).2.1
      = (rows.filter
          (fun r => !(d.existsAt r.storagePath) && !r.isCorrupted)).length := by
  induction rows with
  | nil => rfl
  | cons r rest ih =>
    cases hex : d.existsAt r.storagePath <;> cases hc : r.isCorrupted <;>
      simp [presencePass, hex, hc, ih]

theorem presencePass_healed (d : Disk) (rows : List ImageRecord) :
    (presencePass d rows).2.2
      = (rows.filter
          (fun r => d.existsAt r.storagePath && r.isCorrupted)).length := by
  induction rows with
  | nil => rfl
  | cons r rest ih =>
    cases hex : d.existsAt r.storagePath <;> cases hc : r.isCorrupted <;>
      simp [presencePass, hex, hc, ih]

theorem presenceMut_mem (d : Disk) (r : ImageRecord) (m : Mutation)
    (hm : m ∈ presenceMut d r) : ∃ b, m = .setCorrupted r.id b := by
  unfold presenceMut at hm
  cases hex : d.existsAt r.storagePath <;> cases hc : r.isCorrupted <;>
    simp [hex, hc] at hm <;> exact ⟨_, hm⟩

theorem presencePass_mem (d : Disk) (rows : List ImageRecord) (m : Mutation)
    (hm : m ∈ (presencePass d rows).1) :
    ∃ r ∈ rows, ∃ b, m = .setCorrupted r.id b := by
  induction rows with
  | nil => simp [presencePass] at hm
  | cons r rest ih =>
    rw [presencePass_cons, List.mem_append] at hm
    rcases hm with hm | hm
    · obtain ⟨b, hb⟩ := presenceMut_mem d r _ hm
      exact ⟨r, List.mem_cons_self _ _, b, hb⟩
    · obtain ⟨q, hq, b, hb⟩ := ih hm
      exact ⟨q, List.mem_cons_of_mem _ hq, b, hb⟩

theorem presencePass_numIns (d : Disk) (rows : List ImageRecord) :
    numIns (presencePass d rows).1 = 0 := by
  induction rows with
  | nil => rfl
  | cons r rest ih =>
    rw [presencePass_cons]
    unfold presenceMut
    cases hex : d.existsAt r.storagePath <;> cases hc : r.isCorrupted <;>
      simp [hex, hc, numIns, ih]

theorem presenceMut_not_targeted (d : Disk) (q : ImageRecord) (i : Nat)
    (hne : q.id ≠ i) : ∀ m ∈ presenceMut d q, targets i m = false := by
  intro m hm
  obtain ⟨b, hb⟩ := presenceMut_mem d q m hm
  cases hb
  simpa [targets] using hne

/-- Effect of a row's own presence-pass writes on itself. -/
theorem updAll_presenceMut_self (d : Disk) (r : ImageRecord) :
    updAll (presenceMut d r) r
      = { r with isCorrupted := !(d.existsAt r.storagePath) } := by
  have he : ∀ b : Bool, r.isCorrupted = b →
      ({ r with isCorrupted := b } : ImageRecord) = r := by
    intro b hb
    rw [← hb]
  unfold presenceMut
  cases hex : d.existsAt r.storagePath
  · cases hc : r.isCorrupted
    · -- absent and healthy: flagged
      show updAll [] (if r.id = r.id then { r with isCorrupted := true } else r) = _
      rw [if_pos rfl]
      rfl
    · -- absent and already flagged: untouched
      show updAll [] r = _
      exact (he true hc).symm
  · cases hc : r.isCorrupted
    · -- present and healthy: untouched
      show updAll [] r = _
      exact (he false hc).symm
    · -- present and flagged: healed
      show updAll [] (if r.id = r.id then { r with isCorrupted := false } else r) = _
      rw [if_pos rfl]
      rfl

/-- Net effect of the presence pass on one snapshot row: under distinct
primary keys, its flag becomes the negation of its file's presence. -/
theorem updAll_presencePass (d : Disk) (rows : List ImageRecord) (r : ImageRecord)
    (hids : (rows.map (fun q => q.id)).Nodup) (hr : r ∈ rows) :
    updAll (presencePass d rows).1 r
      = { r with isCorrupted := !(d.existsAt r.storagePath) } := by
  induction rows with
  | nil => cases hr
  | cons q rest ih =>
    rw [presencePass_cons, updAll_append]
    have hcons : (q.id :: rest.map (fun p => p.id)).Nodup := by
      simpa using hids
    have hq_notin : q.id ∉ rest.map (fun p => p.id) := (List.nodup_cons.mp hcons).1
    have hrest_nodup : (rest.map (fun p => p.id)).Nodup := (List.nodup_cons.mp hcons).2
    rcases List.mem_cons.mp hr with rfl | hr'
    · -- the row's own update fires first, the rest never aim at its id
      rw [updAll_presenceMut_self]
      refine updAll_of_not_targeted _ _ fun m hm => ?_
      obtain ⟨p, hp, b, hb⟩ := presencePass_mem d rest m hm
      cases hb
      have hne : p.id ≠ ({ r with isCorrupted := !(d.existsAt r.storagePath) } : ImageRecord).id := by
        show p.id ≠ r.id
        intro he
        exact hq_notin (he ▸ List.mem_map_of_mem _ hp)
      simpa [targets] using fun hcontra => hne (by rw [hcontra])
    · have hqid : q.id ≠ r.id := by
        intro he
        exact hq_notin (he ▸ List.mem_map_of_mem _ hr')
      rw [updAll_of_not_targeted _ _ (presenceMut_not_targeted d q r.id hqid)]
      exact ih hrest_nodup hr'

/-! ## Adoption-pass characterization -/

/-- When every listed file can be stat-ed, the adoption pass completes and
inserts exactly the orphans, in directory order. -/
theorem adoptPass_muts (root : String) (d : Disk) (rows : List ImageRecord)
    (names : List String)
    (h : ∀ name ∈ names, (d.fileAt (joinPath root name)).isSome = true) :
    (adoptPass root d rows names).1
      = (names.filter
          (fun n => !(rows.any (fun r => r.storagePath == joinPath root n)))).map
          (fun n => Mutation.ins (adoptNew root d n)) ∧
    (adoptPass root d rows names).2.1
      = (names.filter
          (fun n => !(rows.any (fun r => r.storagePath == joinPath root n)))).length ∧
    (adoptPass root d rows names).2.2 = true := by
  induction names with
  | nil => exact ⟨rfl, rfl, rfl⟩
  | cons name rest ih =>
    have hhead := h name (List.mem_cons_self _ _)
    obtain ⟨ih1, ih2, ih3⟩ := ih fun n hn => h n (List.mem_cons_of_mem _ hn)
    by_cases hany : rows.any (fun r => r.storagePath == joinPath root name) = true
    · simp [adoptPass, hany, ih1, ih2, ih3, List.filter_cons]
    · have hany' : rows.any (fun r => r.storagePath == joinPath root name) = false :=
        Bool.not_eq_true _ ▸ Bool.of_not_eq_true hany
      obtain ⟨fd, hfd⟩ := Option.isSome_iff_exists.mp hhead
      simp [adoptPass, hany', hfd, ih1, ih2, ih3, List.filter_cons, adoptNew]

theorem adoptPass_all_ins (root : String) (d : Disk) (rows : List ImageRecord)
    (names : List String) (m : Mutation)
    (hm : m ∈ (adoptPass root d rows names).1) : ∃ n, m = .ins n := by
  induction names with
  | nil => simp [adoptPass] at hm
  | cons name rest ih =>
    by_cases hany : rows.any (fun r => r.storagePath == joinPath root name) = true
    · rw [show adoptPass root d rows (name :: rest)
          = adoptPass root d rows rest by simp [adoptPass, hany]] at hm
      exact ih hm
    · have hany' : rows.any (fun r => r.storagePath == joinPath root name) = false :=
        Bool.not_eq_true _ ▸ Bool.of_not_eq_true hany
      cases hfd : d.fileAt (joinPath root name) with
      | none => simp [adoptPass, hany', hfd] at hm
      | some fd =>
        rw [show (adoptPass root d rows (name :: rest)).1
            = .ins (newImageFor root d name fd)
                :: (adoptPass root d rows rest).1 by simp [adoptPass, hany', hfd]] at hm
        rcases List.mem_cons.mp hm with rfl | hm'
        · exact ⟨_, rfl⟩
        · exact ih hm'

theorem adoptPass_insPaths_sub (root : String) (d : Disk) (rows : List ImageRecord)
    (names : List String) :
    List.Sublist (insPaths (adoptPass root d rows names).1)
      (names.map (joinPath root)) := by
  induction names with
  | nil => simp [adoptPass, insPaths]
  | cons name rest ih =>
    by_cases hany : rows.any (fun r => r.storagePath == joinPath root name) = true
    · rw [show adoptPass root d rows (name :: rest)
          = adoptPass root d rows rest by simp [adoptPass, hany]]
      exact ih.cons _
    · have hany' : rows.any (fun r => r.storagePath == joinPath root name) = false :=
        Bool.not_eq_true _ ▸ Bool.of_not_eq_true hany
      cases hfd : d.fileAt (joinPath root name) with
      | none =>
        rw [show (adoptPass root d rows (name :: rest)).1
            = [] by simp [adoptPass, hany', hfd]]
        exact List.nil_sublist _
      | some fd =>
        rw [show (adoptPass root d rows (name :: rest)).1
            = .ins (newImageFor root d name fd)
                :: (adoptPass root d rows rest).1 by simp [adoptPass, hany', hfd]]
        exact ih.cons₂ _

theorem adoptPass_orphan_paths (root : String) (d : Disk) (rows : List ImageRecord)
    (names : List String) (p : String)
    (hp : p ∈ insPaths (adoptPass root d rows names).1) :
    rows.any (fun r => r.storagePath == p) = false := by
  induction names with
  | nil => simp [adoptPass, insPaths] at hp
  | cons name rest ih =>
    by_cases hany : rows.any (fun r => r.storagePath == joinPath root name) = true
    · rw [show adoptPass root d rows (name :: rest)
          = adoptPass root d rows rest by simp [adoptPass, hany]] at hp
      exact ih hp
    · have hany' : rows.any (fun r => r.storagePath == joinPath root name) = false :=
        Bool.not_eq_true _ ▸ Bool.of_not_eq_true hany
      cases hfd : d.fileAt (joinPath root name) with
      | none => simp [adoptPass, hany', hfd, insPaths] at hp
      | some fd =>
        rw [show (adoptPass root d rows (name :: rest)).1
            = .ins (newImageFor root d name fd)
                :: (adoptPass root d rows rest).1 by simp [adoptPass, hany', hfd],
          show insPaths (.ins (newImageFor root d name fd)
              :: (adoptPass root d rows rest).1)
            = joinPath root name :: insPaths (adoptPass root d rows rest).1 from rfl] at hp
        rcases List.mem_cons.mp hp with rfl | hp'
        · exact hany'
        · exact ih hp'

/-! ## Path bookkeeping -/

theorem insPaths_append (ms₁ ms₂ : List Mutation) :
    insPaths (ms₁ ++ ms₂) = insPaths ms₁ ++ insPaths ms₂ := by
  induction ms₁ with
  | nil => rfl
  | cons m ms ih => cases m <;> simp [insPaths, ih]

theorem insPaths_of_no_ins (ms : List Mutation) (h : numIns ms = 0) :
    insPaths ms = [] := by
  induction ms with
  | nil => rfl
  | cons m ms ih =>
    cases m with
    | ins n => simp [numIns] at h
    | setCorrupted i b => exact ih (by simpa [numIns] using h)

theorem applyMuts_paths (now : Nat) (s : Store) (ms : List Mutation) :
    (applyMuts now s ms).rows.map (fun r => r.storagePath)
      = s.rows.map (fun r => r.storagePath) ++ insPaths ms := by
  induction ms generalizing s with
  | nil => simp [applyMuts, insPaths]
  | cons m ms ih =>
    cases m with
    | ins n =>
      have := ih ⟨s.rows ++ [mkRec s.nextId now n], s.nextId + 1⟩
      simp only [applyMuts, applyMut] at this ⊢
      rw [this, List.map_append]
      simp [mkRec, insPaths]
    | setCorrupted i b =>
      have := ih ⟨s.rows.map
        (fun r => if r.id = i then { r with isCorrupted := b } else r), s.nextId⟩
      simp only [applyMuts, applyMut] at this ⊢
      rw [this, List.map_map]
      have hfun : ((fun r => r.storagePath) ∘
          fun r : ImageRecord => if r.id = i then { r with isCorrupted := b } else r)
            = fun r : ImageRecord => r.storagePath := by
        funext r
        by_cases h : r.id = i <;> simp [h]
      rw [hfun]
      rfl

theorem joinPath_inj (root a b : String) (h : joinPath root a = joinPath root b) :
    a = b := by
  have hd : (root ++ "/").data ++ a.data = (root ++ "/").data ++ b.data :=
    congrArg String.data h
  have hab : a.data = b.data := List.append_cancel_left hd
  obtain ⟨la⟩ := a
  obtain ⟨lb⟩ := b
  exact congrArg String.mk hab

/-! ## Inserted-row bookkeeping -/

theorem insRecsOf_paths (now : Nat) (nid : Nat) (ns : List NewImage) :
    (insRecsOf now nid ns).map (fun r => r.storagePath)
      = ns.map (fun n => n.storagePath) := by
  induction ns generalizing nid with
  | nil => rfl
  | cons n ns ih => simp [insRecsOf, mkRec, ih]

theorem insRecsOf_mem (now nid : Nat) (ns : List NewImage) (r : ImageRecord)
    (h : r ∈ insRecsOf now nid ns) :
    ∃ n ∈ ns, r = mkRec r.id now n ∧ nid ≤ r.id := by
  induction ns generalizing nid with
  | nil => simp [insRecsOf] at h
  | cons n ns ih =>
    rcases List.mem_cons.mp h with rfl | h'
    · exact ⟨n, List.mem_cons_self _ _, rfl, Nat.le_refl _⟩
    · obtain ⟨n', hn', hr', hle⟩ := ih (nid + 1) h'
      exact ⟨n', List.mem_cons_of_mem _ hn', hr', Nat.le_of_succ_le hle⟩

theorem insRecsOf_map_id (now nid : Nat) (ns : List NewImage) :
    (insRecsOf now nid ns).map (fun r => r.id) = List.range' nid ns.length := by
  induction ns generalizing nid with
  | nil => rfl
  | cons n ns ih => simp [insRecsOf, mkRec, ih, List.range'_succ]

theorem insRecsOf_length (now nid : Nat) (ns : List NewImage) :
    (insRecsOf now nid ns).length = ns.length := by
  induction ns generalizing nid with
  | nil => rfl
  | cons n ns ih => simp [insRecsOf, ih]

theorem numIns_map_ins {α : Type} (ns : List α) (f : α → NewImage) :
    numIns (ns.map (fun n => Mutation.ins (f n))) = ns.length := by
  induction ns with
  | nil => rfl
  | cons n ns ih => simp [numIns, ih]

/-! ## The sync handler, assembled -/

theorem Disk.wf_fileAt (root : String) (d : Disk) (hd : Disk.wf root d) :
    ∀ name ∈ diskNames d, (d.fileAt (joinPath root name)).isSome = true := by
  intro name hn
  have hm := List.mem_filter.mp hn
  exact (hd name hm.1 hm.2).1

theorem Disk.wf_existsAt (root : String) (d : Disk) (hd : Disk.wf root d) :
    ∀ name ∈ diskNames d, d.existsAt (joinPath root name) = true := by
  intro name hn
  have hm := List.mem_filter.mp hn
  exact (hd name hm.1 hm.2).2

/-- The table the handler leaves behind, summary or not, is the write
list applied to the snapshot. -/
theorem runSync_fst (root : String) (now : Nat) (d : Disk) (s : Store) :
    (runSync root now d s).1 = applyMuts now s (syncMuts root d s.rows) := by
  unfold runSync syncMuts
  by_cases hok : (adoptPass root d s.rows (diskNames d)).2.2 = true
  · simp [hok]
  · have hok' : (adoptPass root d s.rows (diskNames d)).2.2 = false :=
      Bool.not_eq_true _ ▸ Bool.of_not_eq_true hok
    simp [hok']

theorem syncMuts_eq (root : String) (d : Disk) (rows : List ImageRecord)
    (h : ∀ name ∈ diskNames d, (d.fileAt (joinPath root name)).isSome = true) :
    syncMuts root d rows
      = ((orphanNames root d rows).map (fun n => Mutation.ins (adoptNew root d n)))
        ++ (presencePass d rows).1 := by
  obtain ⟨h1, _, h3⟩ := adoptPass_muts root d rows (diskNames d) h
  simp [syncMuts, h3, h1, orphanNames]

theorem syncMuts_setCorrupted_mem (root : String) (d : Disk)
    (rows : List ImageRecord) (i : Nat) (b : Bool)
    (hm : Mutation.setCorrupted i b ∈ syncMuts root d rows) :
    ∃ r ∈ rows, r.id = i := by
  unfold syncMuts at hm
  by_cases hok : (adoptPass root d rows (diskNames d)).2.2 = true
  · rw [if_pos hok, List.mem_append] at hm
    rcases hm with hm | hm
    · obtain ⟨n, hn⟩ := adoptPass_all_ins root d rows (diskNames d) _ hm
      cases hn
    · obtain ⟨r, hr, b', hb'⟩ := presencePass_mem d rows _ hm
      exact ⟨r, hr, by cases hb'; rfl⟩
  · rw [if_neg hok] at hm
    obtain ⟨n, hn⟩ := adoptPass_all_ins root d rows (diskNames d) _ hm
    cases hn

/-- The summary the handler answers on the failure-free path. -/
theorem runSync_snd (root : String) (now : Nat) (d : Disk) (s : Store)
    (h : ∀ name ∈ diskNames d, (d.fileAt (joinPath root name)).isSome = true) :
    (runSync root now d s).2
      = some ⟨s.rows.length, (diskNames d).length,
          (orphanNames root d s.rows).length,
          (s.rows.filter
            (fun r => !(d.existsAt r.storagePath) && !r.isCorrupted)).length,
          (s.rows.filter
            (fun r => d.existsAt r.storagePath && r.isCorrupted)).length⟩ := by
  obtain ⟨_, h2, h3⟩ := adoptPass_muts root d s.rows (diskNames d) h
  simp [runSync, h3, h2, presencePass_missing, presencePass_healed, orphanNames]

/-- Workhorse: the table after a failure-free sync is the snapshot rows —
each with its flag set to the negation of its file's presence — followed
by the adopted orphans in directory order with consecutively generated
ids. -/
theorem runSync_rows (root : String) (now : Nat) (d : Disk) (s : Store)
    (hd : Disk.wf root d) (hs : Store.wf s) :
    (runSync root now d s).1.rows
      = s.rows.map (fun r => { r with isCorrupted := !(d.existsAt r.storagePath) })
        ++ insRecsOf now s.nextId ((orphanNames root d s.rows).map (adoptNew root d)) := by
  have hstat := Disk.wf_fileAt root d hd
  have hmuts := syncMuts_eq root d s.rows hstat
  rw [runSync_fst, hmuts]
  have hlt : ∀ i b, Mutation.setCorrupted i b ∈
      ((orphanNames root d s.rows).map (fun n => Mutation.ins (adoptNew root d n)))
        ++ (presencePass d s.rows).1 → i < s.nextId := by
    intro i b hm
    rcases List.mem_append.mp hm with hm | hm
    · obtain ⟨n, _, hn⟩ := List.mem_map.mp hm
      cases hn
    · obtain ⟨r, hr, b', hb'⟩ := presencePass_mem d s.rows _ hm
      cases hb'
      exact hs.2 r hr
  rw [applyMuts_rows now s _ hlt]
  congr 1
  · -- snapshot rows: adoption inserts are no-ops, then the presence updates
    refine List.map_congr_left fun r hr => ?_
    rw [updAll_append]
    have hins : updAll ((orphanNames root d s.rows).map
        (fun n => Mutation.ins (adoptNew root d n))) r = r := by
      refine updAll_of_not_targeted _ _ fun m hm => ?_
      obtain ⟨n, _, hn⟩ := List.mem_map.mp hm
      cases hn
      rfl
    rw [hins]
    exact updAll_presencePass d s.rows r hs.1 hr
  · -- inserted rows: the presence pass inserts nothing
    rw [insRecs_append, insRecs_of_no_ins _ _ _ (presencePass_numIns d s.rows),
      List.append_nil]
    have : (orphanNames root d s.rows).map (fun n => Mutation.ins (adoptNew root d n))
        = ((orphanNames root d s.rows).map (adoptNew root d)).map Mutation.ins := by
      rw [List.map_map]
      rfl
    rw [this, insRecs_map_ins]

theorem runSync_nextId (root : String) (now : Nat) (d : Disk) (s : Store)
    (hd : Disk.wf root d) :
    (runSync root now d s).1.nextId
      = s.nextId + (orphanNames root d s.rows).length := by
  have hstat := Disk.wf_fileAt root d hd
  rw [runSync_fst, applyMuts_nextId, syncMuts_eq root d s.rows hstat]
  have h1 : numIns (((orphanNames root d s.rows).map
      (fun n => Mutation.ins (adoptNew root d n)))
        ++ (presencePass d s.rows).1)
      = (orphanNames root d s.rows).length := by
    have happ : ∀ ms₁ ms₂ : List Mutation,
        numIns (ms₁ ++ ms₂) = numIns ms₁ + numIns ms₂ := by
      intro ms₁ ms₂
      induction ms₁ with
      | nil => simp [numIns]
      | cons m ms ih => cases m <;> (simp [numIns, ih]; try omega)
    rw [happ, presencePass_numIns, numIns_map_ins]
    omega
  rw [h1]

/-- A failure-free sync preserves table well-formedness. -/
theorem runSync_wf (root : String) (now : Nat) (d : Disk) (s : Store)
    (hd : Disk.wf root d) (hs : Store.wf s) :
    Store.wf (runSync root now d s).1 := by
  rw [Store.wf, runSync_rows root now d s hd hs, runSync_nextId root now d s hd]
  rw [List.map_append, List.map_map, insRecsOf_map_id]
  have hcomp : ((fun r : ImageRecord => r.id) ∘
      fun r : ImageRecord => { r with isCorrupted := !(d.existsAt r.storagePath) })
        = fun r : ImageRecord => r.id := rfl
  rw [hcomp, List.length_map]
  constructor
  · rw [List.nodup_append]
    refine ⟨hs.1, List.nodup_range' _ _, ?_⟩
    intro a ha hb
    obtain ⟨r, hr, hrid⟩ := List.mem_map.mp ha
    have h1 : a < s.nextId := hrid ▸ hs.2 r hr
    have h2 : s.nextId ≤ a := (List.mem_range'_1.mp hb).1
    omega
  · intro r hr
    rcases List.mem_append.mp hr with hr | hr
    · obtain ⟨q, hq, hqr⟩ := List.mem_map.mp hr
      have : q.id < s.nextId := hs.2 q hq
      have hid : r.id = q.id := by rw [← hqr]
      omega
    · obtain ⟨n, _, hrn, hge⟩ := insRecsOf_mem now s.nextId _ r hr
      have : r.id ∈ (insRecsOf now s.nextId
          ((orphanNames root d s.rows).map (adoptNew root d))).map
            (fun q => q.id) := List.mem_map_of_mem _ hr
      rw [insRecsOf_map_id, List.length_map] at this
      have := (List.mem_range'_1.mp this).2
      omega

/-! ## Row lookup after a sync -/

theorem filter_id_eq_singleton (rows : List ImageRecord) (r : ImageRecord)
    (hids : (rows.map (fun q => q.id)).Nodup) (hr : r ∈ rows) :
    rows.filter (fun q => q.id == r.id) = [r] := by
  induction rows with
  | nil => cases hr
  | cons q rest ih =>
    have hcons : (q.id :: rest.map (fun p => p.id)).Nodup := by simpa using hids
    have hq_notin : q.id ∉ rest.map (fun p => p.id) := (List.nodup_cons.mp hcons).1
    have hrest : (rest.map (fun p => p.id)).Nodup := (List.nodup_cons.mp hcons).2
    rcases List.mem_cons.mp hr with rfl | hr'
    · rw [List.filter_cons, if_pos (by simp)]
      have hnil : rest.filter (fun p => p.id == r.id) = [] := by
        rw [List.filter_eq_nil_iff]
        intro p hp hbeq
        exact hq_notin ((beq_iff_eq.mp hbeq) ▸ List.mem_map_of_mem _ hp)
      rw [hnil]
    · have hne : q.id ≠ r.id := fun he => hq_notin (he ▸ List.mem_map_of_mem _ hr')
      rw [List.filter_cons, if_neg (by simpa using hne)]
      exact ih hrest hr'

/-- After a failure-free sync, the unique row carrying a snapshot row's id
is that row with its flag recomputed from its file's presence. -/
theorem runSync_filter_id (root : String) (now : Nat) (d : Disk) (s : Store)
    (r : ImageRecord) (hd : Disk.wf root d) (hs : Store.wf s) (hr : r ∈ s.rows) :
    (runSync root now d s).1.rows.filter (fun q => q.id == r.id)
      = [{ r with isCorrupted := !(d.existsAt r.storagePath) }] := by
  rw [runSync_rows root now d s hd hs, List.filter_append]
  have hmapped : (s.rows.map
      (fun q => { q with isCorrupted := !(d.existsAt q.storagePath) })).filter
        (fun q => q.id == r.id)
      = [{ r with isCorrupted := !(d.existsAt r.storagePath) }] := by
    rw [List.filter_map]
    have hpf : ((fun q : ImageRecord => q.id == r.id) ∘
        fun q : ImageRecord => { q with isCorrupted := !(d.existsAt q.storagePath) })
          = fun q : ImageRecord => q.id == r.id := rfl
    rw [hpf, filter_id_eq_singleton s.rows r hs.1 hr]
    rfl
  have hins : (insRecsOf now s.nextId
      ((orphanNames root d s.rows).map (adoptNew root d))).filter
        (fun q => q.id == r.id) = [] := by
    rw [List.filter_eq_nil_iff]
    intro q hq hbeq
    obtain ⟨n, _, _, hge⟩ := insRecsOf_mem now s.nextId _ q hq
    have hlt : r.id < s.nextId := hs.2 r hr
    have : q.id = r.id := beq_iff_eq.mp hbeq
    omega
  rw [hmapped, hins, List.append_nil]

/-- Every row of the post-sync table is a flag-recomputed snapshot row or
an adopted orphan. -/
theorem runSync_rows_mem (root : String) (now : Nat) (d : Disk) (s : Store)
    (hd : Disk.wf root d) (hs : Store.wf s) (q : ImageRecord)
    (hq : q ∈ (runSync root now d s).1.rows) :
    (∃ r ∈ s.rows, q = { r with isCorrupted := !(d.existsAt r.storagePath) }) ∨
    (∃ name ∈ orphanNames root d s.rows, ∃ j,
      q = mkRec j now (adoptNew root d name)) := by
  rw [runSync_rows root now d s hd hs] at hq
  rcases List.mem_append.mp hq with hq | hq
  · obtain ⟨r, hr, hrq⟩ := List.mem_map.mp hq
    exact Or.inl ⟨r, hr, hrq.symm⟩
  · obtain ⟨n, hn, hrn, _⟩ := insRecsOf_mem now s.nextId _ q hq
    obtain ⟨name, hname, hnn⟩ := List.mem_map.mp hn
    refine Or.inr ⟨name, hname, q.id, ?_⟩
    rw [hnn]
    exact hrn

/-! ## Claim C8 — the Image Inspector is total -/

/-- C8 (confirmed): `analyzeImage` is a total function — no decode failure
escapes it.  When `sharp(path).metadata()` succeeds it answers the decoded
width and height with `isCorrupted = false`; when the call throws it
answers `{ width: null, height: null, isCorrupted: true }`. -/
theorem analyzeImage_never_throws (d : Disk) (p : String) :
    (∀ w h, d.metaAt p = some (w, h) → analyzeImage d p = ⟨w, h, false⟩) ∧
    (d.metaAt p = none → analyzeImage d p = ⟨none, none, true⟩) := by
  constructor
  · intro w h hm
    simp [analyzeImage, hm]
  · intro hm
    simp [analyzeImage, hm]

/-- Witness for C8 on a decodable and on a missing file. -/
theorem analyzeImage_never_throws_witness :
    analyzeImage diskGood "/s/a.png" = ⟨some 3, some 4, false⟩ ∧
    analyzeImage diskGood "/s/missing.png" = ⟨none, none, true⟩ :=
  ⟨(analyzeImage_never_throws diskGood "/s/a.png").1 (some 3) (some 4) (by decide),
    (analyzeImage_never_throws diskGood "/s/missing.png").2 (by decide)⟩

/-! ## Claim C7 — duplicate-path insert is NOT rejected (schema bug) -/

/-- C7 (code bug): init.sql puts no UNIQUE constraint on `storage_path`,
so an insert whose `storage_path` equals an existing row's succeeds and
leaves two rows referencing the same path, instead of surfacing the
distinct store-level constraint error the specification requires. -/
theorem insert_duplicate_path_succeeds :
    storeA.rows.countP (fun r => r.storagePath == "/s/a.png") = 1 ∧
    dupNew.storagePath = "/s/a.png" ∧
    dbInsert 9 storeA dupNew = .ok dupResult ∧
    dupResult.rows.countP (fun r => r.storagePath == "/s/a.png") = 2 := by
  refine ⟨by decide, by decide, by rfl, by decide⟩

/-! ## Claim C1 — idempotence of sync (corrected) -/

/-- C1 counterexample: with an undecodable orphan on disk, the first sync
adopts it with `isCorrupted = true`; the second sync finds the file
present and the row flagged and "heals" it, so the second-run summary has
`healed = 1`, not `0`. -/
theorem sync_not_idempotent_counterexample :
    (runSync "/s" 0 diskBad storeEmpty).2.isSome = true ∧
    ((runSync "/s" 1 diskBad (runSync "/s" 0 diskBad storeEmpty).1).2.map
      (fun t => t.healed)) = some 1 := by
  exact ⟨by decide, by decide⟩

/-- C1 amended (proved): the second of two back-to-back syncs over an
unchanged store and directory always reports zero additions and zero
flags; it also reports zero heals provided every orphan the first run
adopted decodes successfully.  (Without that proviso only the heal count
breaks, as the counterexample above shows: an undecodable orphan is
adopted already flagged and then healed by the second run.) -/
theorem sync_idempotent_of_decodable_orphans
    (root : String) (now₁ now₂ : Nat) (d : Disk) (s : Store)
    (hd : Disk.wf root d) (hs : Store.wf s) :
    (((runSync root now₂ d (runSync root now₁ d s).1).2).map
        (fun t => (t.addedFromDisk, t.markedMissing)) = some (0, 0)) ∧
    ((∀ name ∈ orphanNames root d s.rows,
        (analyzeImage d (joinPath root name)).isCorrupted = false) →
      ((runSync root now₂ d (runSync root now₁ d s).1).2).map
        (fun t => t.healed) = some 0) := by
  have hrows := runSync_rows root now₁ d s hd hs
  have hmem := fun q hq => runSync_rows_mem root now₁ d s hd hs q hq
  constructor
  · rw [runSync_snd root now₂ d (runSync root now₁ d s).1 (Disk.wf_fileAt root d hd)]
    simp only [Option.map_some', Option.some.injEq, Prod.mk.injEq]
    refine ⟨?_, ?_⟩
    · -- no orphan is left: every filtered file now has a row with its path
      rw [List.length_eq_zero]
      simp only [orphanNames]
      rw [List.filter_eq_nil_iff]
      intro n hn hcon
      rw [Bool.not_eq_true'] at hcon
      suffices hsuff : ((runSync root now₁ d s).1.rows.any
          (fun r => r.storagePath == joinPath root n)) = true by
        rw [hsuff] at hcon
        cases hcon
      rw [List.any_eq_true]
      by_cases horph : s.rows.any (fun r => r.storagePath == joinPath root n) = true
      · obtain ⟨r, hr, hrp⟩ := List.any_eq_true.mp horph
        refine ⟨{ r with isCorrupted := !(d.existsAt r.storagePath) }, ?_, hrp⟩
        rw [hrows]
        exact List.mem_append_left _ (List.mem_map_of_mem _ hr)
      · have hn_orph : n ∈ orphanNames root d s.rows := by
          simp only [orphanNames]
          rw [List.mem_filter]
          exact ⟨hn, by simp [Bool.of_not_eq_true horph]⟩
        have hp : joinPath root n ∈ (insRecsOf now₁ s.nextId
            ((orphanNames root d s.rows).map (adoptNew root d))).map
              (fun r => r.storagePath) := by
          rw [insRecsOf_paths, List.map_map]
          exact List.mem_map.mpr ⟨n, hn_orph, rfl⟩
        obtain ⟨rec, hrec, hrecp⟩ := List.mem_map.mp hp
        refine ⟨rec, ?_, by simp [hrecp]⟩
        rw [hrows]
        exact List.mem_append_right _ hrec
    · -- nothing newly missing on the second run
      rw [List.length_eq_zero, List.filter_eq_nil_iff]
      intro q hq
      rcases hmem q hq with ⟨r, _, rfl⟩ | ⟨m, hm, j, rfl⟩
      · cases hex : d.existsAt r.storagePath <;> simp [hex]
      · have hex : d.existsAt (joinPath root m) = true :=
          Disk.wf_existsAt root d hd m (List.mem_filter.mp hm).1
        simp [mkRec, adoptNew, newImageFor, hex]
  · -- nothing healed on the second run, given decodable orphans
    intro hdec
    rw [runSync_snd root now₂ d (runSync root now₁ d s).1 (Disk.wf_fileAt root d hd)]
    simp only [Option.map_some', Option.some.injEq]
    rw [List.length_eq_zero, List.filter_eq_nil_iff]
    intro q hq
    rcases hmem q hq with ⟨r, _, rfl⟩ | ⟨m, hm, j, rfl⟩
    · cases hex : d.existsAt r.storagePath <;> simp [hex]
    · have hc := hdec m hm
      simp [mkRec, adoptNew, newImageFor, hc]

/-- Witness for the amended C1 on a store and directory holding one
decodable orphan. -/
theorem sync_idempotent_of_decodable_orphans_witness :
    Disk.wf "/s" diskGood ∧ Store.wf storeEmpty ∧
    ((((runSync "/s" 1 diskGood (runSync "/s" 0 diskGood storeEmpty).1).2).map
        (fun t => (t.addedFromDisk, t.markedMissing)) = some (0, 0)) ∧
      ((∀ name ∈ orphanNames "/s" diskGood storeEmpty.rows,
          (analyzeImage diskGood (joinPath "/s" name)).isCorrupted = false) →
        ((runSync "/s" 1 diskGood (runSync "/s" 0 diskGood storeEmpty).1).2).map
          (fun t => t.healed) = some 0)) :=
  ⟨by unfold Disk.wf; decide, by unfold Store.wf; decide,
    sync_idempotent_of_decodable_orphans "/s" 0 1 diskGood storeEmpty
      (by unfold Disk.wf; decide) (by unfold Store.wf; decide)⟩

/-! ## Claim C5 — updatedAt on flag transitions (corrected) -/

/-- C5 counterexample: `rowA` starts healthy with `updatedAt = 5`; its
file is absent, so the sync at time 99 flags it — yet `updatedAt` is
still 5 afterwards, because the handler's UPDATE sets only
`is_corrupted` and the schema declares no trigger on `updated_at`. -/
theorem sync_updatedAt_counterexample :
    rowA.isCorrupted = false ∧ rowA.updatedAt = 5 ∧
    ((runSync "/s" 99 diskEmpty storeA).1.rows.map
      (fun r => (r.isCorrupted, r.updatedAt))) = [(true, 5)] := by
  exact ⟨by decide, by decide, by decide⟩

/-- C5 amended (proved): a corruption-flag transition leaves `updatedAt`
(and `createdAt`) of the row unchanged — the engine updates only the
`is_corrupted` column and nothing in the schema refreshes the timestamp. -/
theorem sync_flag_transition_keeps_updatedAt
    (root : String) (now : Nat) (d : Disk) (s : Store) (r : ImageRecord)
    (hd : Disk.wf root d) (hs : Store.wf s) (hr : r ∈ s.rows) :
    ∀ q ∈ (runSync root now d s).1.rows, q.id = r.id →
      q.updatedAt = r.updatedAt ∧ q.createdAt = r.createdAt := by
  intro q hq hid
  have hfilter := runSync_filter_id root now d s r hd hs hr
  have hmem : q ∈ (runSync root now d s).1.rows.filter (fun p => p.id == r.id) :=
    List.mem_filter.mpr ⟨hq, by simp [hid]⟩
  rw [hfilter, List.mem_singleton] at hmem
  rw [hmem]
  exact ⟨rfl, rfl⟩

/-- Witness for the amended C5: the flagged row of the counterexample
state keeps both timestamps. -/
theorem sync_flag_transition_keeps_updatedAt_witness :
    Disk.wf "/s" diskEmpty ∧ Store.wf storeA ∧ rowA ∈ storeA.rows ∧
    (∀ q ∈ (runSync "/s" 99 diskEmpty storeA).1.rows, q.id = rowA.id →
      q.updatedAt = rowA.updatedAt ∧ q.createdAt = rowA.createdAt) :=
  ⟨by unfold Disk.wf; decide, by unfold Store.wf; decide, by decide,
    sync_flag_transition_keeps_updatedAt "/s" 99 diskEmpty storeA rowA
      (by unfold Disk.wf; decide) (by unfold Store.wf; decide) (by decide)⟩

/-! ## Claim C3 — missing files are flagged, never deleted -/

/-- C3 (confirmed): a healthy snapshot row whose path is absent on disk
is still present after the sync with `isCorrupted = true` (the unique row
with its id is exactly the old row with the flag raised); `markedMissing`
counts exactly the healthy-and-absent snapshot rows (so an
absent-but-already-flagged row is not counted), at least this row; an
absent-and-already-flagged row survives unchanged; and every snapshot
row's id is still present — the engine deletes nothing. -/
theorem sync_missing_file_flagged
    (root : String) (now : Nat) (d : Disk) (s : Store) (r : ImageRecord)
    (hd : Disk.wf root d) (hs : Store.wf s)
    (hr : r ∈ s.rows) (hflag : r.isCorrupted = false)
    (hex : d.existsAt r.storagePath = false) :
    ((runSync root now d s).1.rows.filter (fun q => q.id == r.id)
        = [{ r with isCorrupted := true }]) ∧
    (∃ t, (runSync root now d s).2 = some t ∧
        t.markedMissing
          = (s.rows.filter
              (fun q => !(d.existsAt q.storagePath) && !q.isCorrupted)).length ∧
        1 ≤ t.markedMissing) ∧
    (∀ q ∈ s.rows, d.existsAt q.storagePath = false → q.isCorrupted = true →
        q ∈ (runSync root now d s).1.rows) ∧
    (∀ q ∈ s.rows, ∃ p ∈ (runSync root now d s).1.rows, p.id = q.id) := by
  refine ⟨?_, ?_, ?_, ?_⟩
  · have hfil := runSync_filter_id root now d s r hd hs hr
    rw [hex] at hfil
    simpa using hfil
  · refine ⟨_, runSync_snd root now d s (Disk.wf_fileAt root d hd), rfl, ?_⟩
    have hmem : r ∈ s.rows.filter
        (fun q => !(d.existsAt q.storagePath) && !q.isCorrupted) :=
      List.mem_filter.mpr ⟨hr, by rw [hex, hflag]; rfl⟩
    exact List.length_pos.mpr (List.ne_nil_of_mem hmem)
  · intro q hq hqex hqcorr
    rw [runSync_rows root now d s hd hs]
    apply List.mem_append_left
    have hfix : ({ q with isCorrupted := !(d.existsAt q.storagePath) } : ImageRecord)
        = q := by
      rw [hqex]
      show ({ q with isCorrupted := true } : ImageRecord) = q
      rw [← hqcorr]
    exact hfix ▸ List.mem_map_of_mem _ hq
  · intro q hq
    refine ⟨{ q with isCorrupted := !(d.existsAt q.storagePath) }, ?_, rfl⟩
    rw [runSync_rows root now d s hd hs]
    exact List.mem_append_left _ (List.mem_map_of_mem _ hq)

/-- Witness for C3: `rowA` is healthy, its file is absent, and the sync
leaves exactly the flagged copy under its id. -/
theorem sync_missing_file_flagged_witness :
    Disk.wf "/s" diskEmpty ∧ Store.wf storeA ∧ rowA ∈ storeA.rows ∧
    rowA.isCorrupted = false ∧ diskEmpty.existsAt rowA.storagePath = false ∧
    ((runSync "/s" 7 diskEmpty storeA).1.rows.filter (fun q => q.id == rowA.id)
        = [{ rowA with isCorrupted := true }]) :=
  ⟨by unfold Disk.wf; decide, by unfold Store.wf; decide, by decide, by decide,
    by decide,
    (sync_missing_file_flagged "/s" 7 diskEmpty storeA rowA
      (by unfold Disk.wf; decide) (by unfold Store.wf; decide) (by decide)
      (by decide) (by decide)).1⟩

/-! ## Claim C4 — healing is a pure flag flip -/

/-- C4 (confirmed): a flagged snapshot row whose path exists on disk ends
the sync as exactly the old row with `isCorrupted := false` — the
singleton filter equation pins every other column (`width`, `height`,
`sizeBytes`, timestamps, path) to its old value, so the Image Inspector
is not re-run on heal — and `healed` counts exactly the
present-and-flagged snapshot rows, at least this one. -/
theorem sync_heal_is_pure_flag_flip
    (root : String) (now : Nat) (d : Disk) (s : Store) (r : ImageRecord)
    (hd : Disk.wf root d) (hs : Store.wf s)
    (hr : r ∈ s.rows) (hflag : r.isCorrupted = true)
    (hex : d.existsAt r.storagePath = true) :
    ((runSync root now d s).1.rows.filter (fun q => q.id == r.id)
        = [{ r with isCorrupted := false }]) ∧
    (∃ t, (runSync root now d s).2 = some t ∧
        t.healed = (s.rows.filter
          (fun q => d.existsAt q.storagePath && q.isCorrupted)).length ∧
        1 ≤ t.healed) := by
  refine ⟨?_, ?_⟩
  · have hfil := runSync_filter_id root now d s r hd hs hr
    rw [hex] at hfil
    simpa using hfil
  · refine ⟨_, runSync_snd root now d s (Disk.wf_fileAt root d hd), rfl, ?_⟩
    have hmem : r ∈ s.rows.filter
        (fun q => d.existsAt q.storagePath && q.isCorrupted) :=
      List.mem_filter.mpr ⟨hr, by rw [hex, hflag]; rfl⟩
    exact List.length_pos.mpr (List.ne_nil_of_mem hmem)

/-- Witness for C4: the flagged row backed by a present decodable file is
healed with `width`, `height` and `sizeBytes` untouched. -/
theorem sync_heal_is_pure_flag_flip_witness :
    Disk.wf "/s" diskGood ∧ Store.wf storeFlagged ∧ rowFlagged ∈ storeFlagged.rows ∧
    rowFlagged.isCorrupted = true ∧ diskGood.existsAt rowFlagged.storagePath = true ∧
    ((runSync "/s" 7 diskGood storeFlagged).1.rows.filter
        (fun q => q.id == rowFlagged.id)
      = [{ rowFlagged with isCorrupted := false }]) :=
  ⟨by unfold Disk.wf; decide, by unfold Store.wf; decide, by decide, by decide,
    by decide,
    (sync_heal_is_pure_flag_flip "/s" 7 diskGood storeFlagged rowFlagged
      (by unfold Disk.wf; decide) (by unfold Store.wf; decide) (by decide)
      (by decide) (by decide)).1⟩

/-! ## Claim C2 — orphan adoption -/

/-- C2 (confirmed): an allow-listed directory entry whose full path
matches no snapshot row gives rise to exactly one new record at that
path, whose filename is the entry name, whose MIME type follows the
extension rule, whose size is the stat result, and whose width, height
and corruption flag are the Image Inspector's verdict; `addedFromDisk`
counts exactly the orphan entries. -/
theorem sync_orphan_adoption
    (root : String) (now : Nat) (d : Disk) (s : Store) (name : String)
    (hd : Disk.wf root d) (hs : Store.wf s) (hnodup : d.listing.Nodup)
    (hmem : name ∈ d.listing) (himg : isImageName name = true)
    (horph : ∀ r ∈ s.rows, r.storagePath ≠ joinPath root name) :
    ∃ fd, d.fileAt (joinPath root name) = some fd ∧
      ((runSync root now d s).1.rows.countP
          (fun q => q.storagePath == joinPath root name)) = 1 ∧
      (∀ q ∈ (runSync root now d s).1.rows, q.storagePath = joinPath root name →
          q.filename = name ∧ q.mimeType = mimeFor name ∧ q.sizeBytes = fd.size ∧
          q.width = (analyzeImage d (joinPath root name)).width ∧
          q.height = (analyzeImage d (joinPath root name)).height ∧
          q.isCorrupted = (analyzeImage d (joinPath root name)).isCorrupted) ∧
      ((runSync root now d s).2.map (fun t => t.addedFromDisk))
        = some (orphanNames root d s.rows).length := by
  obtain ⟨fd, hfd⟩ := Option.isSome_iff_exists.mp (hd name hmem himg).1
  refine ⟨fd, hfd, ?_, ?_, ?_⟩
  · -- exactly one row carries the orphan's path afterwards
    have hanyf : s.rows.any (fun r => r.storagePath == joinPath root name) = false := by
      rw [List.any_eq_false]
      intro r hr
      simpa using horph r hr
    have hname_orph : name ∈ orphanNames root d s.rows := by
      simp only [orphanNames]
      exact List.mem_filter.mpr
        ⟨List.mem_filter.mpr ⟨hmem, himg⟩, by rw [hanyf]; rfl⟩
    have horph_nodup : (orphanNames root d s.rows).Nodup := by
      simp only [orphanNames, diskNames]
      exact ((List.filter_sublist _).trans (List.filter_sublist _)).nodup hnodup
    have hinj : Function.Injective (joinPath root) := fun a b h =>
      joinPath_inj root a b h
    rw [runSync_rows root now d s hd hs, List.countP_append]
    have hmapped : (s.rows.map
        (fun q => { q with isCorrupted := !(d.existsAt q.storagePath) })).countP
          (fun q => q.storagePath == joinPath root name) = 0 := by
      rw [List.countP_eq_zero]
      intro q hq
      obtain ⟨r, hr, hrq⟩ := List.mem_map.mp hq
      have : q.storagePath = r.storagePath := by rw [← hrq]
      simpa [this] using horph r hr
    have hins : (insRecsOf now s.nextId
        ((orphanNames root d s.rows).map (adoptNew root d))).countP
          (fun q => q.storagePath == joinPath root name) = 1 := by
      have hcm := List.countP_map
        (fun x : String => x == joinPath root name)
        (fun q : ImageRecord => q.storagePath)
        (l := insRecsOf now s.nextId
          ((orphanNames root d s.rows).map (adoptNew root d)))
      rw [show ((fun x : String => x == joinPath root name) ∘
          fun q : ImageRecord => q.storagePath)
            = fun q : ImageRecord => q.storagePath == joinPath root name from rfl] at hcm
      rw [← hcm, insRecsOf_paths, List.map_map]
      rw [show ((fun n : NewImage => n.storagePath) ∘ adoptNew root d)
            = joinPath root from rfl]
      rw [← List.count_eq_countP]
      exact List.count_eq_one_of_mem (horph_nodup.map hinj)
        (List.mem_map_of_mem _ hname_orph)
    rw [hmapped, hins]
  · -- and that row is the synthesized orphan record
    intro q hq hqp
    rcases runSync_rows_mem root now d s hd hs q hq with ⟨r, hr, rfl⟩ | ⟨m, hm, j, rfl⟩
    · exact absurd (by simpa using hqp) (horph r hr)
    · have hjm : joinPath root m = joinPath root name := hqp
      cases joinPath_inj root m name hjm
      refine ⟨rfl, rfl, ?_, rfl, rfl, rfl⟩
      show ((d.fileAt (joinPath root name)).getD ⟨0, none⟩).size = fd.size
      rw [hfd]
      rfl
  · rw [runSync_snd root now d s (Disk.wf_fileAt root d hd)]
    rfl

/-- Witness for C2: adopting `a.png` from `diskGood` into an empty store. -/
theorem sync_orphan_adoption_witness :
    Disk.wf "/s" diskGood ∧ Store.wf storeEmpty ∧ diskGood.listing.Nodup ∧
    "a.png" ∈ diskGood.listing ∧ isImageName "a.png" = true ∧
    (∀ r ∈ storeEmpty.rows, r.storagePath ≠ joinPath "/s" "a.png") ∧
    ∃ fd, diskGood.fileAt (joinPath "/s" "a.png") = some fd ∧
      ((runSync "/s" 3 diskGood storeEmpty).1.rows.countP
          (fun q => q.storagePath == joinPath "/s" "a.png")) = 1 ∧
      (∀ q ∈ (runSync "/s" 3 diskGood storeEmpty).1.rows,
          q.storagePath = joinPath "/s" "a.png" →
          q.filename = "a.png" ∧ q.mimeType = mimeFor "a.png" ∧ q.sizeBytes = fd.size ∧
          q.width = (analyzeImage diskGood (joinPath "/s" "a.png")).width ∧
          q.height = (analyzeImage diskGood (joinPath "/s" "a.png")).height ∧
          q.isCorrupted = (analyzeImage diskGood (joinPath "/s" "a.png")).isCorrupted) ∧
      ((runSync "/s" 3 diskGood storeEmpty).2.map (fun t => t.addedFromDisk))
        = some (orphanNames "/s" diskGood storeEmpty.rows).length :=
  ⟨by unfold Disk.wf; decide, by unfold Store.wf; decide, by decide, by decide,
    by decide, by decide,
    sync_orphan_adoption "/s" 3 diskGood storeEmpty "a.png"
      (by unfold Disk.wf; decide) (by unfold Store.wf; decide) (by decide)
      (by decide) (by decide) (by decide)⟩

/-! ## Claim C6 — storage-path uniqueness is preserved -/

/-- One sync run — complete or aborted — preserves path uniqueness. -/
theorem runSync_pathsUnique (root : String) (now : Nat) (d : Disk) (s : Store)
    (hu : pathsUnique s.rows) (hld : d.listing.Nodup) :
    pathsUnique (runSync root now d s).1.rows := by
  have hsub0 : insPaths (syncMuts root d s.rows)
      = insPaths (adoptPass root d s.rows (diskNames d)).1 := by
    unfold syncMuts
    by_cases hok : (adoptPass root d s.rows (diskNames d)).2.2 = true
    · rw [if_pos hok, insPaths_append,
        insPaths_of_no_ins _ (presencePass_numIns d s.rows), List.append_nil]
    · rw [if_neg hok]
  rw [pathsUnique, runSync_fst, applyMuts_paths, hsub0, List.nodup_append]
  refine ⟨hu, ?_, ?_⟩
  · have hdn : (diskNames d).Nodup := (List.filter_sublist _).nodup hld
    exact (adoptPass_insPaths_sub root d s.rows (diskNames d)).nodup
      (hdn.map (fun a b hab => joinPath_inj root a b hab))
  · intro p hp hpin
    have horth := adoptPass_orphan_paths root d s.rows (diskNames d) p hpin
    obtain ⟨r, hr, hrp⟩ := List.mem_map.mp hp
    rw [List.any_eq_false] at horth
    exact horth r hr (by simp [hrp])

/-- C6 (confirmed): if each `storagePath` is referenced by at most one
row, then after any number of `runSync` invocations — each against its
own directory snapshot, each possibly aborted partway — every
`storagePath` is still referenced by at most one row: the engine never
inserts a record for a path an existing record already carries. -/
theorem sync_paths_unique
    (root : String) (steps : List (Disk × Nat)) (s : Store)
    (hu : pathsUnique s.rows)
    (hsteps : ∀ p ∈ steps, (p.1).listing.Nodup) :
    pathsUnique (syncSteps root steps s).rows := by
  induction steps generalizing s with
  | nil => exact hu
  | cons st rest ih =>
    have h1 := runSync_pathsUnique root st.2 st.1 s hu
      (hsteps st (List.mem_cons_self _ _))
    show pathsUnique (syncSteps root rest (runSync root st.2 st.1 s).1).rows
    exact ih (runSync root st.2 st.1 s).1 h1
      (fun p hp => hsteps p (List.mem_cons_of_mem _ hp))

/-- Witness for C6: two sync runs over a one-row table. -/
theorem sync_paths_unique_witness :
    pathsUnique storeA.rows ∧
    (∀ p ∈ [(diskGood, 0), (diskGood, 1)], (p.1).listing.Nodup) ∧
    pathsUnique (syncSteps "/s" [(diskGood, 0), (diskGood, 1)] storeA).rows :=
  ⟨by unfold pathsUnique; decide, by decide,
    sync_paths_unique "/s" [(diskGood, 0), (diskGood, 1)] storeA
      (by unfold pathsUnique; decide) (by decide)⟩

/-! ## Claim C9 — abort semantics -/

theorem updAll_take_or (ms : List Mutation) (k : Nat) (r : ImageRecord)
    (hcount : (ms.filter (targets r.id)).length ≤ 1) :
    updAll (ms.take k) r = r ∨ updAll (ms.take k) r = updAll ms r := by
  by_cases hnone : ∀ m ∈ ms.take k, targets r.id m = false
  · exact Or.inl (updAll_of_not_targeted _ _ hnone)
  · right
    push_neg at hnone
    obtain ⟨m, hm, hmt⟩ := hnone
    have hmt' : targets r.id m = true := by
      cases hb : targets r.id m
      · exact absurd hb hmt
      · rfl
    have hdrop : ∀ m' ∈ ms.drop k, targets r.id m' = false := by
      intro m' hm'
      cases hb : targets r.id m'
      · rfl
      · exfalso
        have hsplit : ms.filter (targets r.id)
            = (ms.take k).filter (targets r.id)
              ++ (ms.drop k).filter (targets r.id) := by
          rw [← List.filter_append, List.take_append_drop]
        have h1 : 1 ≤ ((ms.take k).filter (targets r.id)).length :=
          List.length_pos.mpr
            (List.ne_nil_of_mem (List.mem_filter.mpr ⟨hm, hmt'⟩))
        have h2 : 1 ≤ ((ms.drop k).filter (targets r.id)).length :=
          List.length_pos.mpr
            (List.ne_nil_of_mem (List.mem_filter.mpr ⟨hm', hb⟩))
        rw [hsplit, List.length_append] at hcount
        omega
    have hdrop' : ∀ m' ∈ ms.drop k,
        targets (updAll (ms.take k) r).id m' = false := by
      rw [updAll_id]
      exact hdrop
    conv_rhs => rw [← List.take_append_drop k ms]
    rw [updAll_append]
    exact (updAll_of_not_targeted _ _ hdrop').symm

theorem syncMuts_targets_count (root : String) (d : Disk)
    (rows : List ImageRecord) (hids : (rows.map (fun q => q.id)).Nodup) (i : Nat) :
    ((syncMuts root d rows).filter (targets i)).length ≤ 1 := by
  have hadopt : ∀ names,
      ((adoptPass root d rows names).1.filter (targets i)) = [] := by
    intro names
    rw [List.filter_eq_nil_iff]
    intro m hm hmt
    obtain ⟨n, rfl⟩ := adoptPass_all_ins root d rows names m hm
    simp [targets] at hmt
  have hpres : ∀ rs : List ImageRecord, (rs.map (fun q => q.id)).Nodup →
      (((presencePass d rs).1).filter (targets i)).length ≤ 1 := by
    intro rs
    induction rs with
    | nil => intro _; simp [presencePass]
    | cons q rest ih =>
      intro hnd
      have hcons : (q.id :: rest.map (fun p => p.id)).Nodup := by simpa using hnd
      have hqni := (List.nodup_cons.mp hcons).1
      have hrnd := (List.nodup_cons.mp hcons).2
      rw [presencePass_cons, List.filter_append, List.length_append]
      by_cases hqt : q.id = i
      · have hrest0 : ((presencePass d rest).1.filter (targets i)).length = 0 := by
          rw [List.length_eq_zero, List.filter_eq_nil_iff]
          intro m hm hmt
          obtain ⟨p, hp, b, rfl⟩ := presencePass_mem d rest m hm
          have hpi : p.id = i := by simpa [targets] using hmt
          exact hqni (by
            rw [hqt]
            exact hpi ▸ List.mem_map_of_mem _ hp)
        have hlen : (presenceMut d q).length ≤ 1 := by
          unfold presenceMut
          cases hex : d.existsAt q.storagePath <;> cases hc : q.isCorrupted <;>
            simp [hex, hc]
        have hhead := Nat.le_trans (List.length_filter_le (targets i) (presenceMut d q)) hlen
        omega
      · have hhead0 : ((presenceMut d q).filter (targets i)) = [] := by
          rw [List.filter_eq_nil_iff]
          intro m hm hmt
          obtain ⟨b, rfl⟩ := presenceMut_mem d q m hm
          exact hqt (by simpa [targets] using hmt)
        rw [hhead0]
        simpa using ih hrnd
  unfold syncMuts
  by_cases hok : (adoptPass root d rows (diskNames d)).2.2 = true
  · rw [if_pos hok, List.filter_append, List.length_append, hadopt]
    simpa using hpres rows hids
  · rw [if_neg hok, hadopt]
    simp

/-- C9 (confirmed): when the `(k+1)`-st database write of a sync raises,
the handler answers the single failure value with no summary counts, the
`k` writes already awaited stay committed (no rollback), and every row of
the resulting table is either exactly its pre-sync version or exactly its
version in the completed sync — rows are never left half-written. -/
theorem sync_abort_keeps_committed_writes
    (root : String) (now k : Nat) (d : Disk) (s : Store) (hs : Store.wf s) :
    (runSyncFaulty root now k d s).2 = none ∧
    ∀ q ∈ (runSyncFaulty root now k d s).1.rows,
      q ∈ s.rows ∨ q ∈ (runSync root now d s).1.rows := by
  refine ⟨rfl, ?_⟩
  intro q hq
  have hltfull : ∀ i b, Mutation.setCorrupted i b ∈ syncMuts root d s.rows →
      i < s.nextId := by
    intro i b hm
    obtain ⟨r, hr, hri⟩ := syncMuts_setCorrupted_mem root d s.rows i b hm
    exact hri ▸ hs.2 r hr
  have hlt : ∀ i b, Mutation.setCorrupted i b ∈ (syncMuts root d s.rows).take k →
      i < s.nextId :=
    fun i b hm => hltfull i b ((List.take_sublist k _).subset hm)
  simp only [runSyncFaulty] at hq
  rw [applyMuts_rows now s _ hlt] at hq
  rcases List.mem_append.mp hq with hq | hq
  · obtain ⟨r, hr, hrq⟩ := List.mem_map.mp hq
    have hcount := syncMuts_targets_count root d s.rows hs.1 r.id
    rcases updAll_take_or (syncMuts root d s.rows) k r hcount with heq | heq
    · left
      rw [← hrq, heq]
      exact hr
    · right
      rw [runSync_fst, applyMuts_rows now s _ hltfull]
      apply List.mem_append_left
      rw [← hrq, heq]
      exact List.mem_map_of_mem _ hr
  · right
    rw [runSync_fst, applyMuts_rows now s _ hltfull]
    exact List.mem_append_right _ (insRecs_take_mem now _ k s.nextId q hq)

/-- Witness for C9: the fault hits after the orphan insert and before the
missing-file flag update. -/
theorem sync_abort_keeps_committed_writes_witness :
    Store.wf storeA ∧
    ((runSyncFaulty "/s" 4 1 diskBad storeA).2 = none ∧
      ∀ q ∈ (runSyncFaulty "/s" 4 1 diskBad storeA).1.rows,
        q ∈ storeA.rows ∨ q ∈ (runSync "/s" 4 diskBad storeA).1.rows) :=
  ⟨by unfold Store.wf; decide,
    sync_abort_keeps_committed_writes "/s" 4 1 diskBad storeA
      (by unfold Store.wf; decide)⟩

/-! ## Claim C10 — crop records skip inspection -/

/-- C10 (confirmed): on every successful crop the inserted record has
`width = null`, `height = null`, `isCorrupted = false` — the handler
lists neither dimension column in its INSERT and never calls
`analyzeImage` on the new file — and its `storagePath` is exactly the
path the cropped file was just written to; since the codec only emits
decodable images (hypothesis `hcodec`), the record has null dimensions
even though inspecting its backing file would succeed. -/
theorem crop_record_skips_inspection
    (codec : FileData → CropRegion → Option FileData)
    (root : String) (ts now : Nat) (s : Store) (d : Disk) (id : Nat)
    (x y w h : ℚ) (s' : Store) (d' : Disk) (rec : ImageRecord)
    (hcodec : ∀ fd rg out, codec fd rg = some out → out.meta.isSome = true)
    (hok : cropEndpoint codec root ts now s d id x y w h = .created s' d' rec) :
    rec.width = none ∧ rec.height = none ∧ rec.isCorrupted = false ∧
    rec ∈ s'.rows ∧
    d'.files.head?.map (fun e => e.1) = some rec.storagePath ∧
    (analyzeImage d' rec.storagePath).isCorrupted = false := by
  unfold cropEndpoint at hok
  split at hok
  · cases hok
  · split at hok
    · cases hok
    · split at hok
      · cases hok
      · split at hok
        · cases hok
        · split at hok
          · cases hok
          · split at hok
            · cases hok
            · cases hok
              rename_i srcFd hsrc mw mh hmeta hdims outFd hcodecEq
              have hout : outFd.meta.isSome = true := hcodec _ _ _ hcodecEq
              obtain ⟨mm, hmm⟩ := Option.isSome_iff_exists.mp hout
              obtain ⟨ow, oh⟩ := mm
              refine ⟨rfl, rfl, rfl, by simp [cropRow], by simp [diskAfterWrite, cropRow, mkRec], ?_⟩
              simp [analyzeImage, Disk.metaAt, Disk.fileAt, diskAfterWrite, cropRow, mkRec, hmm]

/-- Witness for C10: cropping the decodable `src.png`. -/
theorem crop_record_skips_inspection_witness :
    (∀ fd rg out, codecConst fd rg = some out → out.meta.isSome = true) ∧
    ∃ s' d' rec,
      cropEndpoint codecConst "/s" 2 3 storeCrop diskCrop 0
          (1 / 4) (1 / 4) (1 / 2) (1 / 2) = .created s' d' rec ∧
      rec.width = none ∧ rec.height = none ∧ rec.isCorrupted = false ∧
      rec ∈ s'.rows ∧
      d'.files.head?.map (fun e => e.1) = some rec.storagePath ∧
      (analyzeImage d' rec.storagePath).isCorrupted = false := by
  have hcodec : ∀ fd rg out, codecConst fd rg = some out → out.meta.isSome = true := by
    intro fd rg out hout
    cases hout
    rfl
  refine ⟨hcodec, _, _, _, rfl, ?_⟩
  exact crop_record_skips_inspection codecConst "/s" 2 3 storeCrop diskCrop 0
    (1 / 4) (1 / 4) (1 / 2) (1 / 2) _ _ _ hcodec rfl

end PixelSync
